import Mathlib

/-!
Verification of the ABX task generator (`ABXpy/task.py`).

This file shallowly embeds the data model and the algorithms of `task.py`:
a `by` group of the item database is a row-index list together with the
`on` column and the list of `across` columns; candidate-set construction,
index-based factorial triplet combination, statistics, threshold sampling,
pair-key encoding and the external-sort chunking policy are translated
from the source.  Machine integers are modelled as `Nat` (the source fits
a wide-enough unsigned dtype before each computation and the relevant
quantities are proved to fit below); numpy float arithmetic in the sort
policy is modelled as exact rational arithmetic.
-/

/-- One `by` group of the database, as prepared by `Task.__init__`
(lines 242-278): `index` is the list of row indices that survived the
`by` filter and the generic filter (in the source, the index of the
pandas frame `by_dbs[by]`), `onCol` gives each item's value for the
single `on` attribute, `acrossCols` gives each item's value for every
`across` attribute, and `syntheticAcross` records whether the task's
across list is the synthetic column list `['#across']` inserted when the
user supplied no across attribute. -/
structure ByFrame (α β : Type) where
  index : List ℕ
  onCol : ℕ → α
  acrossCols : List (ℕ → β)
  syntheticAcross : Bool

/-- The tuple of across-attribute values of item `i` (the groupby key of
`across_blocks`). -/
def acrossTuple {α β : Type} (F : ByFrame α β) (i : ℕ) : List β :=
  F.acrossCols.map (fun col => col i)

/-- The `on` group of key `o` (`self.on_blocks[by].groups[on]`). -/
def onGroup {α β : Type} [DecidableEq α] (F : ByFrame α β) (o : α) : List ℕ :=
  F.index.filter (fun i => decide (F.onCol i = o))

/-- The `across` group of key `c` (`self.across_blocks[by].groups[across]`);
the key of a 1-attribute across is modelled as a singleton list. -/
def acrossGroup {α β : Type} [DecidableEq β] (F : ByFrame α β) (c : List β) : List ℕ :=
  F.index.filter (fun i => decide (acrossTuple F i = c))

/-- The `on × across` block of keys `(o, c)`
(`self.on_across_blocks[by].groups[block_key]`). -/
def onAcrossBlock {α β : Type} [DecidableEq α] [DecidableEq β]
    (F : ByFrame α β) (o : α) (c : List β) : List ℕ :=
  F.index.filter (fun i => decide (F.onCol i = o ∧ acrossTuple F i = c))

/-- The anti-across set of across key `c`: items whose across tuple
differs from `c` in every coordinate (lines 270-278, built only when the
across list has more than one attribute). -/
def antiacrossBlock {α β : Type} [DecidableEq β] (F : ByFrame α β) (c : List β) : List ℕ :=
  F.index.filter (fun i => (F.acrossCols.zip c).all (fun p => decide (¬ p.1 i = p.2)))

/-- Candidate set `A` of a block: the block itself (line 436). -/
def candidateA {α β : Type} [DecidableEq α] [DecidableEq β]
    (F : ByFrame α β) (o : α) (c : List β) : List ℕ :=
  onAcrossBlock F o c

/-- Candidate set `B` of a block (lines 440-449): with the synthetic
across, any item of the by group not sharing `on` with `A`; otherwise the
across group minus `A`. -/
def candidateB {α β : Type} [DecidableEq α] [DecidableEq β]
    (F : ByFrame α β) (o : α) (c : List β) : List ℕ :=
  if F.syntheticAcross then
    F.index.filter (fun i => decide (i ∉ onGroup F o))
  else
    (acrossGroup F c).filter (fun i => decide (i ∉ candidateA F o c))

/-- Candidate set `X` of a block (lines 452-456): when the across key is
a tuple (two or more across attributes) the intersection of the
anti-across set with the on group, otherwise the on group minus `A`. -/
def candidateX {α β : Type} [DecidableEq α] [DecidableEq β]
    (F : ByFrame α β) (o : α) (c : List β) : List ℕ :=
  if 2 ≤ F.acrossCols.length then
    (antiacrossBlock F c).filter (fun i => decide (i ∈ onGroup F o))
  else
    (onGroup F o).filter (fun i => decide (i ∉ candidateA F o c))

theorem tuple_eq_not_antiacross {α β : Type} (F : ByFrame α β) (i : ℕ) (c : List β)
    (hcols : F.acrossCols ≠ []) (ht : acrossTuple F i = c)
    (hall : ∀ p ∈ F.acrossCols.zip c, ¬ p.1 i = p.2) : False := by
  rcases hc : F.acrossCols with _ | ⟨col, cols⟩
  · exact hcols hc
  · unfold acrossTuple at ht
    rw [hc] at ht
    rcases c with _ | ⟨c0, ct⟩
    · simp at ht
    · rw [List.map_cons] at ht
      have hhead : col i = c0 := (List.cons.injEq _ _ _ _ ▸ ht).1
      have hmem : (col, c0) ∈ F.acrossCols.zip (c0 :: ct) := by
        rw [hc, List.zip_cons_cons]
        exact List.mem_cons_self _ _
      exact hall _ hmem hhead

/-- C2: in every block the candidate sets built by `on_across_triplets`
before singleton filtering satisfy `A ∩ B = ∅` and `A ∩ X = ∅`, and when
the across attribute list has two or more coordinates (the across key is
a tuple) also `B ∩ X = ∅`, since `X` is then restricted to the
anti-across set. -/
theorem candidate_sets_disjoint {α β : Type} [DecidableEq α] [DecidableEq β]
    (F : ByFrame α β) (o : α) (c : List β) :
    (candidateA F o c).Disjoint (candidateB F o c) ∧
    (candidateA F o c).Disjoint (candidateX F o c) ∧
    (2 ≤ F.acrossCols.length →
      (candidateB F o c).Disjoint (candidateX F o c)) := by
  refine ⟨?_, ?_, ?_⟩
  · intro i hiA hiB
    unfold candidateB at hiB
    by_cases hs : F.syntheticAcross
    · rw [if_pos hs] at hiB
      rcases List.mem_filter.mp hiB with ⟨hidx, hnot⟩
      rcases List.mem_filter.mp hiA with ⟨hidx', hkey⟩
      rw [decide_eq_true_iff] at hnot hkey
      exact hnot (List.mem_filter.mpr ⟨hidx', by simp [hkey.1]⟩)
    · rw [if_neg hs] at hiB
      rcases List.mem_filter.mp hiB with ⟨_, hnot⟩
      rw [decide_eq_true_iff] at hnot
      exact hnot hiA
  · intro i hiA hiX
    unfold candidateX at hiX
    by_cases h2 : 2 ≤ F.acrossCols.length
    · rw [if_pos h2] at hiX
      rcases List.mem_filter.mp hiX with ⟨hanti, _⟩
      rcases List.mem_filter.mp hiA with ⟨_, hkey⟩
      rw [decide_eq_true_iff] at hkey
      rcases List.mem_filter.mp hanti with ⟨_, hall⟩
      rw [List.all_eq_true] at hall
      refine tuple_eq_not_antiacross F i c ?_ hkey.2 (fun p hp => ?_)
      · intro hnil
        rw [hnil] at h2
        simp at h2
      · exact of_decide_eq_true (hall p hp)
    · rw [if_neg h2] at hiX
      rcases List.mem_filter.mp hiX with ⟨_, hnot⟩
      rw [decide_eq_true_iff] at hnot
      exact hnot hiA
  · intro h2 i hiB hiX
    unfold candidateX at hiX
    rw [if_pos h2] at hiX
    rcases List.mem_filter.mp hiX with ⟨hanti, hon⟩
    rw [decide_eq_true_iff] at hon
    rcases List.mem_filter.mp hanti with ⟨_, hall⟩
    rw [List.all_eq_true] at hall
    unfold candidateB at hiB
    by_cases hs : F.syntheticAcross
    · rw [if_pos hs] at hiB
      rcases List.mem_filter.mp hiB with ⟨_, hnot⟩
      rw [decide_eq_true_iff] at hnot
      exact hnot hon
    · rw [if_neg hs] at hiB
      rcases List.mem_filter.mp hiB with ⟨hac, _⟩
      rcases List.mem_filter.mp hac with ⟨_, hkey⟩
      rw [decide_eq_true_iff] at hkey
      refine tuple_eq_not_antiacross F i c ?_ hkey (fun p hp => ?_)
      · intro hnil
        rw [hnil] at h2
        simp at h2
      · exact of_decide_eq_true (hall p hp)

/-- C2 witness: a concrete frame with two across columns; the block
`(o, c) = (0, [0, 1])` has disjoint candidate sets. -/
theorem candidate_sets_disjoint_witness :
    (candidateA (ByFrame.mk [0, 1, 2, 3] (fun i => i % 2) [fun i => i, fun i => i + 1] false)
        0 [0, 1]).Disjoint
      (candidateB (ByFrame.mk [0, 1, 2, 3] (fun i => i % 2) [fun i => i, fun i => i + 1] false)
        0 [0, 1]) ∧
    (candidateA (ByFrame.mk [0, 1, 2, 3] (fun i => i % 2) [fun i => i, fun i => i + 1] false)
        0 [0, 1]).Disjoint
      (candidateX (ByFrame.mk [0, 1, 2, 3] (fun i => i % 2) [fun i => i, fun i => i + 1] false)
        0 [0, 1]) ∧
    (candidateB (ByFrame.mk [0, 1, 2, 3] (fun i => i % 2) [fun i => i, fun i => i + 1] false)
        0 [0, 1]).Disjoint
      (candidateX (ByFrame.mk [0, 1, 2, 3] (fun i => i % 2) [fun i => i, fun i => i + 1] false)
        0 [0, 1]) :=
  ⟨(candidate_sets_disjoint _ 0 [0, 1]).1,
   (candidate_sets_disjoint _ 0 [0, 1]).2.1,
   (candidate_sets_disjoint _ 0 [0, 1]).2.2 (by decide)⟩

/-- Index-based factorial combination of the candidate sets
(lines 479-494 with `indices = arange(size)`): linear index `i` decodes
to `x = i mod |X|`, `b = (i div |X|) mod |B|`, `a = i div (|B|·|X|)` and
the triplet is `(A[a], B[b], X[x])`. -/
def materializeTriplets (A B X : List ℕ) : List (ℕ × ℕ × ℕ) :=
  (List.range (A.length * B.length * X.length)).map (fun i =>
    (A.getD (i / (B.length * X.length)) 0,
     B.getD (i / X.length % B.length) 0,
     X.getD (i % X.length) 0))

/-- Canonical enumeration of all triplets with `X` fastest-varying and
`A` slowest (the order the spec calls canonical). -/
def canonicalTriplets (A B X : List ℕ) : List (ℕ × ℕ × ℕ) :=
  A.flatMap (fun a => B.flatMap (fun b => X.map (fun x => (a, b, x))))

theorem getD_range_map (X : List ℕ) :
    (List.range X.length).map (fun i => X.getD i 0) = X := by
  induction X with
  | nil => rfl
  | cons x X ih =>
    simp only [List.length_cons, List.range_succ_eq_map, List.map_cons, List.getD_cons_zero,
      List.map_map]
    refine congrArg (x :: ·) ?_
    calc (List.range X.length).map ((fun i => (x :: X).getD i 0) ∘ Nat.succ)
        = (List.range X.length).map (fun i => X.getD i 0) := by
          refine List.map_congr_left (fun i _ => ?_)
          simp
      _ = X := ih

theorem materializePairs_eq (B X : List ℕ) :
    (List.range (B.length * X.length)).map (fun i =>
      (B.getD (i / X.length) 0, X.getD (i % X.length) 0)) =
      B.flatMap (fun b => X.map (fun x => (b, x))) := by
  induction B with
  | nil => simp
  | cons b B ih =>
    rcases Nat.eq_zero_or_pos X.length with hx | hx
    · rw [List.length_eq_zero.mp hx]; simp
    have hlen : (b :: B).length * X.length = X.length + B.length * X.length := by
      simp [Nat.succ_mul, Nat.add_comm]
    rw [hlen, List.range_add, List.map_append, List.map_map]
    have h1 : (List.range X.length).map (fun i =>
        ((b :: B).getD (i / X.length) 0, X.getD (i % X.length) 0)) =
        X.map (fun x => (b, x)) := by
      calc (List.range X.length).map (fun i =>
            ((b :: B).getD (i / X.length) 0, X.getD (i % X.length) 0))
          = (List.range X.length).map (fun i => (b, X.getD i 0)) := by
            refine List.map_congr_left (fun i hi => ?_)
            rw [List.mem_range] at hi
            rw [Nat.div_eq_of_lt hi, Nat.mod_eq_of_lt hi]
            rfl
        _ = ((List.range X.length).map (fun i => X.getD i 0)).map (fun x => (b, x)) := by
            rw [List.map_map]; rfl
        _ = X.map (fun x => (b, x)) := by rw [getD_range_map]
    have h2 : (List.range (B.length * X.length)).map ((fun i =>
        ((b :: B).getD (i / X.length) 0, X.getD (i % X.length) 0)) ∘ (X.length + ·)) =
        B.flatMap (fun b => X.map (fun x => (b, x))) := by
      rw [← ih]
      refine List.map_congr_left (fun i _ => ?_)
      have hdiv : (X.length + i) / X.length = i / X.length + 1 := by
        rw [Nat.add_comm, Nat.add_div_right _ hx]
      have hmod : (X.length + i) % X.length = i % X.length := by
        simp [Nat.add_comm]
      simp [Function.comp, hdiv, hmod]
    rw [h1, h2, List.flatMap_cons]

theorem materializeTriplets_eq_canonical (A B X : List ℕ) :
    materializeTriplets A B X = canonicalTriplets A B X := by
  induction A with
  | nil => simp [materializeTriplets, canonicalTriplets]
  | cons a A ih =>
    unfold materializeTriplets canonicalTriplets
    rcases Nat.eq_zero_or_pos (B.length * X.length) with hm | hm
    · have hBX : B.length * X.length = 0 := hm
      have : (a :: A).length * B.length * X.length = 0 := by
        rw [Nat.mul_assoc, hBX, Nat.mul_zero]
      rw [this]
      rcases Nat.mul_eq_zero.mp hBX with hB | hX
      · rw [List.length_eq_zero.mp hB]; simp
      · rw [List.length_eq_zero.mp hX]; simp
    have hlen : (a :: A).length * B.length * X.length =
        B.length * X.length + A.length * (B.length * X.length) := by
      simp [Nat.succ_mul, Nat.add_mul, Nat.mul_assoc, Nat.add_comm]
    rw [hlen, List.range_add, List.map_append, List.map_map]
    have h1 : (List.range (B.length * X.length)).map (fun i =>
        ((a :: A).getD (i / (B.length * X.length)) 0,
         B.getD (i / X.length % B.length) 0, X.getD (i % X.length) 0)) =
        B.flatMap (fun b => X.map (fun x => (a, b, x))) := by
      have hx : 0 < X.length := Nat.pos_of_mul_pos_left hm
      calc (List.range (B.length * X.length)).map (fun i =>
            ((a :: A).getD (i / (B.length * X.length)) 0,
             B.getD (i / X.length % B.length) 0, X.getD (i % X.length) 0))
          = (List.range (B.length * X.length)).map (fun i =>
            (a, B.getD (i / X.length) 0, X.getD (i % X.length) 0)) := by
            refine List.map_congr_left (fun i hi => ?_)
            rw [List.mem_range] at hi
            have h0 : i / (B.length * X.length) = 0 := Nat.div_eq_of_lt hi
            have hdivlt : i / X.length < B.length := by
              rw [Nat.div_lt_iff_lt_mul hx]
              exact hi
            rw [h0, Nat.mod_eq_of_lt hdivlt]
            rfl
        _ = ((List.range (B.length * X.length)).map (fun i =>
            (B.getD (i / X.length) 0, X.getD (i % X.length) 0))).map
              (fun p => (a, p.1, p.2)) := by rw [List.map_map]; rfl
        _ = B.flatMap (fun b => X.map (fun x => (a, b, x))) := by
            rw [materializePairs_eq, List.map_flatMap]
            refine List.flatMap_congr (fun b _ => ?_)
            rw [List.map_map]
            rfl
    have h2 : (List.range (A.length * (B.length * X.length))).map ((fun i =>
        ((a :: A).getD (i / (B.length * X.length)) 0,
         B.getD (i / X.length % B.length) 0, X.getD (i % X.length) 0)) ∘
          (B.length * X.length + ·)) =
        A.flatMap (fun a => B.flatMap (fun b => X.map (fun x => (a, b, x)))) := by
      have hx : 0 < X.length := Nat.pos_of_mul_pos_left hm
      have ih' := ih
      unfold materializeTriplets canonicalTriplets at ih'
      rw [← ih', Nat.mul_assoc]
      refine List.map_congr_left (fun i _ => ?_)
      have hdiv1 : (B.length * X.length + i) / (B.length * X.length) =
          i / (B.length * X.length) + 1 := by
        rw [Nat.add_comm, Nat.add_div_right _ hm]
      have hdiv2 : (B.length * X.length + i) / X.length = B.length + i / X.length := by
        rw [Nat.mul_comm, Nat.add_comm, Nat.add_mul_div_left _ _ hx, Nat.add_comm]
      have hmod2 : (B.length + i / X.length) % B.length = i / X.length % B.length := by
        simp [Nat.add_comm]
      have hmodX : (B.length * X.length + i) % X.length = i % X.length := by
        simp [Nat.mul_comm B.length X.length, Nat.add_comm]
      simp only [Function.comp, hdiv1, hdiv2, hmod2, hmodX, List.getD_cons_succ]
    rw [h1, h2, List.flatMap_cons]

/-- C1: decoding a linear index `i < |A|·|B|·|X|` by
`x = i mod |X|`, `b = (i div |X|) mod |B|`, `a = i div (|B|·|X|)` yields
in-range component indices, re-encoding `a·(|B|·|X|) + b·|X| + x` gives
back `i`, and enumerating all indices `0..size-1` materializes exactly
the canonical triplet enumeration `(A[a], B[b], X[x])` with `X`
fastest-varying and `A` slowest. -/
theorem linear_index_decode_encode (A B X : List ℕ)
    (hA : A ≠ []) (hB : B ≠ []) (hX : X ≠ []) :
    (∀ i < A.length * B.length * X.length,
      i / (B.length * X.length) < A.length ∧
      i / X.length % B.length < B.length ∧
      i % X.length < X.length ∧
      (i / (B.length * X.length)) * (B.length * X.length) +
        (i / X.length % B.length) * X.length + i % X.length = i) ∧
    materializeTriplets A B X = canonicalTriplets A B X := by
  have hb : 0 < B.length := List.length_pos.mpr hB
  have hx : 0 < X.length := List.length_pos.mpr hX
  have hm : 0 < B.length * X.length := Nat.mul_pos hb hx
  refine ⟨fun i hi => ?_, materializeTriplets_eq_canonical A B X⟩
  refine ⟨?_, Nat.mod_lt _ hb, Nat.mod_lt _ hx, ?_⟩
  · rw [Nat.div_lt_iff_lt_mul hm]
    calc i < A.length * B.length * X.length := hi
      _ = A.length * (B.length * X.length) := by rw [Nat.mul_assoc]
  · have hdd : i / (B.length * X.length) = i / X.length / B.length := by
      rw [Nat.div_div_eq_div_mul, Nat.mul_comm]
    calc (i / (B.length * X.length)) * (B.length * X.length) +
          (i / X.length % B.length) * X.length + i % X.length
        = (B.length * (i / X.length / B.length) + i / X.length % B.length) * X.length
            + i % X.length := by rw [hdd]; ring
      _ = X.length * (i / X.length) + i % X.length := by
          rw [Nat.div_add_mod (i / X.length) B.length]; ring
      _ = i := Nat.div_add_mod i X.length

/-- C1 witness: the decode bounds and the round trip at `A = [5, 6]`,
`B = [7]`, `X = [8, 9]`, index `i = 3`. -/
theorem linear_index_decode_encode_witness :
    (3 / (([7] : List ℕ).length * ([8, 9] : List ℕ).length) <
        ([5, 6] : List ℕ).length ∧
      3 / ([8, 9] : List ℕ).length % ([7] : List ℕ).length <
        ([7] : List ℕ).length ∧
      3 % ([8, 9] : List ℕ).length < ([8, 9] : List ℕ).length ∧
      3 / (([7] : List ℕ).length * ([8, 9] : List ℕ).length) *
          (([7] : List ℕ).length * ([8, 9] : List ℕ).length) +
        3 / ([8, 9] : List ℕ).length % ([7] : List ℕ).length *
          ([8, 9] : List ℕ).length + 3 % ([8, 9] : List ℕ).length = 3) ∧
    materializeTriplets [5, 6] [7] [8, 9] = canonicalTriplets [5, 6] [7] [8, 9] :=
  ⟨(linear_index_decode_encode [5, 6] [7] [8, 9] (by decide) (by decide)
      (by decide)).1 3 (by decide),
   (linear_index_decode_encode [5, 6] [7] [8, 9] (by decide) (by decide)
      (by decide)).2⟩

/-- Singleton (`A`/`B`/`X`) filters, the triplet-level (`ABX`) filter and
the on-across-by filter of a task, as opaque predicates (the filter
collaborators of §6 of the spec; `FilterManager` itself is outside the
core).  A field is `none` when the corresponding filter list is empty,
matching the truthiness tests `self.filters.A` and so on in the source. -/
structure Filters (α β : Type) where
  A : Option (ℕ → Bool)
  B : Option (ℕ → Bool)
  X : Option (ℕ → Bool)
  ABX : Option (ℕ × ℕ × ℕ → Bool)
  onAcrossBy : Option (α → List β → Bool)

/-- Application of an optional singleton filter: the source keeps the
subset `A[iA]` returned by the filter, modelled as a predicate filter
(lines 461-469). -/
def applySingletonFilter (f : Option (ℕ → Bool)) (l : List ℕ) : List ℕ :=
  match f with
  | none => l
  | some p => l.filter p

/-- Truthiness of `self.filters.A or self.filters.B or self.filters.X or
self.filters.ABX` (lines 317-318 and 381-383). -/
def anyFilter {α β : Type} (filt : Filters α β) : Bool :=
  filt.A.isSome || filt.B.isSome || filt.X.isSome || filt.ABX.isSome

/-- Whether a block passes the on-across-by filter (line 369); the
filter predicate is modelled on the block key. -/
def passesOnAcrossBy {α β : Type} (filt : Filters α β) (o : α) (c : List β) : Bool :=
  match filt.onAcrossBy with
  | none => true
  | some p => p o c

/-- The triplet generation of `on_across_triplets` for one block with
`with_regressors=False` (lines 434-501 and 558-560): build the candidate
sets, apply the singleton filters, enumerate all linear indices (when
`compute_statistics` runs, `self.sampling` is `False`, having been set in
`__init__`), decode them into triplets and apply the `ABX` filter. -/
def on_across_triplets_noreg {α β : Type} [DecidableEq α] [DecidableEq β]
    (F : ByFrame α β) (filt : Filters α β) (o : α) (c : List β) : List (ℕ × ℕ × ℕ) :=
  let A := applySingletonFilter filt.A (candidateA F o c)
  let B := applySingletonFilter filt.B (candidateB F o c)
  let X := applySingletonFilter filt.X (candidateX F o c)
  let triplets := materializeTriplets A B X
  match filt.ABX with
  | none => triplets
  | some p => triplets.filter p

/-- The per-block triplet count of `compute_statistics` (lines 370-396)
for a block passing the on-across-by filter: `n_A` is the block size,
`n_X = |on group| - n_A`, `n_B = nb_items - |on group|` for the synthetic
across and `|across group| - n_A` otherwise; the product shortcut is
taken when `(approximate or no A/B/X/ABX filter) and the across key is
not a tuple`, and otherwise the full generation is run with regressors
disabled and its rows are counted. -/
def block_triplet_count {α β : Type} [DecidableEq α] [DecidableEq β]
    (F : ByFrame α β) (filt : Filters α β) (approximate : Bool)
    (o : α) (c : List β) : ℕ :=
  let n_A := (onAcrossBlock F o c).length
  let on_level := (onGroup F o).length
  let n_B := if F.syntheticAcross then F.index.length - on_level
             else (acrossGroup F c).length - n_A
  let n_X := on_level - n_A
  if (approximate || !anyFilter filt) && decide (F.acrossCols.length ≤ 1)
  then n_A * n_B * n_X
  else (on_across_triplets_noreg F filt o c).length

theorem length_filter_not_eq (l : List ℕ) (p : ℕ → Bool) :
    (l.filter (fun i => !(p i))).length = l.length - (l.filter p).length := by
  induction l with
  | nil => rfl
  | cons a l ih =>
    have hle := List.length_filter_le p l
    cases h : p a <;> simp [List.filter_cons, h, ih] <;> omega

theorem length_candidateB_synthetic {α β : Type} [DecidableEq α] [DecidableEq β]
    (F : ByFrame α β) (o : α) (c : List β) (h : F.syntheticAcross = true) :
    (candidateB F o c).length = F.index.length - (onGroup F o).length := by
  unfold candidateB
  rw [h]
  simp only [if_true]
  have hcong : F.index.filter (fun i => decide (i ∉ onGroup F o)) =
      F.index.filter (fun i => !(decide (F.onCol i = o))) := by
    refine List.filter_congr (fun i hi => ?_)
    rw [decide_not]
    refine congrArg (! ·) (decide_eq_decide.mpr ?_)
    unfold onGroup
    rw [List.mem_filter]
    simp [hi]
  rw [hcong, length_filter_not_eq]
  rfl

theorem acrossGroup_filter_on_eq {α β : Type} [DecidableEq α] [DecidableEq β]
    (F : ByFrame α β) (o : α) (c : List β) :
    (acrossGroup F c).filter (fun i => decide (F.onCol i = o)) = candidateA F o c := by
  unfold acrossGroup candidateA onAcrossBlock
  rw [List.filter_filter]
  refine List.filter_congr (fun i _ => ?_)
  rw [Bool.decide_and]

theorem length_candidateB_nonsynthetic {α β : Type} [DecidableEq α] [DecidableEq β]
    (F : ByFrame α β) (o : α) (c : List β) (h : F.syntheticAcross = false) :
    (candidateB F o c).length =
      (acrossGroup F c).length - (candidateA F o c).length := by
  unfold candidateB
  rw [h]
  simp only [Bool.false_eq_true, if_false]
  have hcong : (acrossGroup F c).filter (fun i => decide (i ∉ candidateA F o c)) =
      (acrossGroup F c).filter (fun i => !(decide (F.onCol i = o))) := by
    refine List.filter_congr (fun i hi => ?_)
    rw [decide_not]
    refine congrArg (! ·) (decide_eq_decide.mpr ?_)
    unfold acrossGroup at hi
    rcases List.mem_filter.mp hi with ⟨hidx, hkey⟩
    rw [decide_eq_true_iff] at hkey
    unfold candidateA onAcrossBlock
    rw [List.mem_filter]
    simp [hidx, hkey]
  rw [hcong, length_filter_not_eq, acrossGroup_filter_on_eq]

theorem onGroup_filter_across_eq {α β : Type} [DecidableEq α] [DecidableEq β]
    (F : ByFrame α β) (o : α) (c : List β) :
    (onGroup F o).filter (fun i => decide (acrossTuple F i = c)) = candidateA F o c := by
  unfold onGroup candidateA onAcrossBlock
  rw [List.filter_filter]
  refine List.filter_congr (fun i _ => ?_)
  rw [Bool.decide_and]
  exact Bool.and_comm _ _

theorem length_candidateX_nontuple {α β : Type} [DecidableEq α] [DecidableEq β]
    (F : ByFrame α β) (o : α) (c : List β) (h : F.acrossCols.length ≤ 1) :
    (candidateX F o c).length =
      (onGroup F o).length - (candidateA F o c).length := by
  unfold candidateX
  rw [if_neg (by omega)]
  have hcong : (onGroup F o).filter (fun i => decide (i ∉ candidateA F o c)) =
      (onGroup F o).filter (fun i => !(decide (acrossTuple F i = c))) := by
    refine List.filter_congr (fun i hi => ?_)
    rw [decide_not]
    refine congrArg (! ·) (decide_eq_decide.mpr ?_)
    unfold onGroup at hi
    rcases List.mem_filter.mp hi with ⟨hidx, hkey⟩
    rw [decide_eq_true_iff] at hkey
    unfold candidateA onAcrossBlock
    rw [List.mem_filter]
    simp [hidx, hkey]
  rw [hcong, length_filter_not_eq, onGroup_filter_across_eq]

theorem materializeTriplets_length (A B X : List ℕ) :
    (materializeTriplets A B X).length = A.length * B.length * X.length := by
  unfold materializeTriplets
  rw [List.length_map, List.length_range]

theorem anyFilter_eq_false_fields {α β : Type} (filt : Filters α β)
    (h : anyFilter filt = false) :
    filt.A = none ∧ filt.B = none ∧ filt.X = none ∧ filt.ABX = none := by
  unfold anyFilter at h
  rcases Bool.or_eq_false_iff.mp h with ⟨h3, h4⟩
  rcases Bool.or_eq_false_iff.mp h3 with ⟨h1, h2⟩
  rcases Bool.or_eq_false_iff.mp h1 with ⟨hA, hB⟩
  refine ⟨?_, ?_, ?_, ?_⟩
  · cases hx : filt.A
    · rfl
    · simp at hA
      exact hx.symm.trans hA
  · cases hx : filt.B
    · rfl
    · simp at hB
      exact hx.symm.trans hB
  · cases hx : filt.X
    · rfl
    · simp at h2
      exact hx.symm.trans h2
  · cases hx : filt.ABX
    · rfl
    · simp at h4
      exact hx.symm.trans h4

/-- C3 (amended): for a block passing the on-across-by filter, when no
A/B/X/ABX filter is active and the across list has at most one
coordinate, the block's triplet count in `compute_statistics` equals
`n_A · n_B · n_X` built from the group sizes (`n_A` the block size,
`n_X = |on group| - n_A`, `n_B = nb_items - |on group|` for the
synthetic across and `|across group| - n_A` otherwise), and this equals
the number of rows produced by the full generation; and whenever an
A/B/X/ABX filter is present and `approximate` was not requested, the
count falls back to running the full triplet generation with regressors
disabled and counting its rows.  (The original claim asserted the
fallback unconditionally for any active filter; with `approximate=True`
the source instead takes the cheap product path.) -/
theorem compute_statistics_block_count {α β : Type} [DecidableEq α] [DecidableEq β]
    (F : ByFrame α β) (filt : Filters α β) (approx : Bool) (o : α) (c : List β) :
    (anyFilter filt = false → F.acrossCols.length ≤ 1 →
      block_triplet_count F filt approx o c =
        (onAcrossBlock F o c).length *
          (if F.syntheticAcross then F.index.length - (onGroup F o).length
           else (acrossGroup F c).length - (onAcrossBlock F o c).length) *
          ((onGroup F o).length - (onAcrossBlock F o c).length) ∧
      block_triplet_count F filt approx o c =
        (on_across_triplets_noreg F filt o c).length) ∧
    (anyFilter filt = true →
      block_triplet_count F filt false o c =
        (on_across_triplets_noreg F filt o c).length) := by
  constructor
  · intro hno hlen
    have hcond : ((approx || !anyFilter filt) && decide (F.acrossCols.length ≤ 1)) = true := by
      rw [hno]
      simp [hlen]
    have hprod : block_triplet_count F filt approx o c =
        (onAcrossBlock F o c).length *
          (if F.syntheticAcross then F.index.length - (onGroup F o).length
           else (acrossGroup F c).length - (onAcrossBlock F o c).length) *
          ((onGroup F o).length - (onAcrossBlock F o c).length) := by
      unfold block_triplet_count
      rw [if_pos hcond]
    refine ⟨hprod, ?_⟩
    rcases anyFilter_eq_false_fields filt hno with ⟨hA, hB, hX, hABX⟩
    have hgen : on_across_triplets_noreg F filt o c =
        materializeTriplets (candidateA F o c) (candidateB F o c) (candidateX F o c) := by
      unfold on_across_triplets_noreg
      rw [hA, hB, hX, hABX]
      rfl
    rw [hprod, hgen, materializeTriplets_length]
    have hXlen := length_candidateX_nontuple F o c hlen
    by_cases hs : F.syntheticAcross = true
    · rw [if_pos hs, length_candidateB_synthetic F o c hs, hXlen]
      rfl
    · have hs' : F.syntheticAcross = false := by
        cases hsx : F.syntheticAcross
        · rfl
        · exact absurd hsx hs
      rw [if_neg (by rw [hs']; exact Bool.false_ne_true),
        length_candidateB_nonsynthetic F o c hs', hXlen]
      rfl
  · intro hyes
    unfold block_triplet_count
    rw [if_neg]
    rw [hyes]
    simp

/-- C3 counterexample to the original claim: with an A filter active but
`approximate=True`, the source still takes the cheap product path, so the
reported block count (here 1) differs from the row count of the full
generation (here 0): the fallback is not unconditional in the presence
of filters. -/
theorem compute_statistics_fallback_counterexample :
    block_triplet_count (ByFrame.mk [0, 1, 2] (fun i => i / 2) [fun i => i] true)
        (Filters.mk (some (fun _ => false)) none none none none) true 0 [0] = 1 ∧
    (on_across_triplets_noreg (ByFrame.mk [0, 1, 2] (fun i => i / 2) [fun i => i] true)
        (Filters.mk (some (fun _ => false)) none none none none) 0 [0]).length = 0 := by
  constructor <;> rfl

/-- C3 witness: the amended theorem applied to a concrete frame, once
with no filters (product path agrees with full enumeration) and once
with an A filter and `approximate=False` (fallback path). -/
theorem compute_statistics_block_count_witness :
    (block_triplet_count (ByFrame.mk [0, 1, 2] (fun i => i / 2) [fun i => i] true)
        (Filters.mk none none none none none) false 0 [0] =
      (onAcrossBlock (ByFrame.mk [0, 1, 2] (fun i => i / 2) [fun i => i] true) 0 [0]).length *
        (if (ByFrame.mk [0, 1, 2] (fun i => i / 2) [fun i => i] true).syntheticAcross then
          (ByFrame.mk [0, 1, 2] (fun i => i / 2) [fun i => i] true).index.length -
            (onGroup (ByFrame.mk [0, 1, 2] (fun i => i / 2) [fun i => i] true) 0).length
         else
          (acrossGroup (ByFrame.mk [0, 1, 2] (fun i => i / 2) [fun i => i] true) [0]).length -
            (onAcrossBlock (ByFrame.mk [0, 1, 2] (fun i => i / 2) [fun i => i] true) 0 [0]).length) *
        ((onGroup (ByFrame.mk [0, 1, 2] (fun i => i / 2) [fun i => i] true) 0).length -
          (onAcrossBlock (ByFrame.mk [0, 1, 2] (fun i => i / 2) [fun i => i] true) 0 [0]).length) ∧
      block_triplet_count (ByFrame.mk [0, 1, 2] (fun i => i / 2) [fun i => i] true)
        (Filters.mk none none none none none) false 0 [0] =
      (on_across_triplets_noreg (ByFrame.mk [0, 1, 2] (fun i => i / 2) [fun i => i] true)
        (Filters.mk none none none none none) 0 [0]).length) ∧
    block_triplet_count (ByFrame.mk [0, 1, 2] (fun i => i / 2) [fun i => i] true)
        (Filters.mk (some (fun _ => false)) none none none none) false 0 [0] =
      (on_across_triplets_noreg (ByFrame.mk [0, 1, 2] (fun i => i / 2) [fun i => i] true)
        (Filters.mk (some (fun _ => false)) none none none none) 0 [0]).length :=
  ⟨(compute_statistics_block_count (ByFrame.mk [0, 1, 2] (fun i => i / 2) [fun i => i] true)
      (Filters.mk none none none none none) false 0 [0]).1 rfl (by decide),
   (compute_statistics_block_count (ByFrame.mk [0, 1, 2] (fun i => i / 2) [fun i => i] true)
      (Filters.mk (some (fun _ => false)) none none none none) false 0 [0]).2 rfl⟩

/-- Modelled from the spec: the Type-Width Fitter ("given a maximum
representable value and signedness, returns the smallest fixed-width
integer type that can hold it"); its module `ABXpy.misc.type_fitting` is
outside `src/`.  Only the unsigned case is used here; the result is the
bit width of the chosen type. -/
def fit_integer_type (maxVal : ℕ) : ℕ :=
  if maxVal < 256 then 8
  else if maxVal < 65536 then 16
  else if maxVal < 4294967296 then 32
  else 64

theorem fit_integer_type_holds (maxVal : ℕ) (h : maxVal < 2 ^ 64) :
    maxVal < 2 ^ fit_integer_type maxVal := by
  unfold fit_integer_type
  split_ifs with h1 h2 h3 <;> norm_num <;> omega

theorem fit_integer_type_min (maxVal w : ℕ)
    (hw : w = 8 ∨ w = 16 ∨ w = 32 ∨ w = 64) (h : maxVal < 2 ^ w) :
    fit_integer_type maxVal ≤ w := by
  unfold fit_integer_type
  rcases hw with hw | hw | hw | hw <;> subst hw <;> norm_num at h <;>
    split_ifs with h1 h2 h3 <;> omega

/-- The pair-key emission of `generate_pairs` (lines 835-869): for each
triplet `(a, b, x)` of one chunk, two keys are appended in order, the
`AX` key `a + (max_ind+1)·x` followed by the `BX` key
`b + (max_ind+1)·x`. -/
def generate_pairs_keys (max_ind : ℕ) (triplets : List (ℕ × ℕ × ℕ)) : List ℕ :=
  triplets.flatMap (fun t =>
    [t.1 + (max_ind + 1) * t.2.2, t.2.1 + (max_ind + 1) * t.2.2])

theorem generate_pairs_keys_length (max_ind : ℕ) (triplets : List (ℕ × ℕ × ℕ)) :
    (generate_pairs_keys max_ind triplets).length = 2 * triplets.length := by
  induction triplets with
  | nil => rfl
  | cons t l ih =>
    unfold generate_pairs_keys at ih ⊢
    rw [List.flatMap_cons, List.length_append, ih, List.length_cons]
    simp
    omega

theorem pair_key_le (max_ind a x : ℕ) (ha : a ≤ max_ind) (hx : x ≤ max_ind) :
    a + (max_ind + 1) * x ≤ (max_ind + 1) ^ 2 - 1 := by
  have h1 : a + (max_ind + 1) * x ≤ max_ind + (max_ind + 1) * max_ind :=
    Nat.add_le_add ha (Nat.mul_le_mul_left _ hx)
  have h2 : (max_ind + 1) ^ 2 = max_ind * max_ind + 2 * max_ind + 1 := by ring
  have h3 : (max_ind + 1) * max_ind = max_ind * max_ind + max_ind := by ring
  omega

/-- C4: per chunk of `n` triplets, `generate_pairs` emits `2n` pair keys
`AX = a + (max_ind+1)·x` and `BX = b + (max_ind+1)·x`; decoding any
emitted key by `(key mod (max_ind+1), key div (max_ind+1))` recovers
exactly the original pair (`(a, x)` for the AX key, `(b, x)` for the BX
key); every key fits `(max_ind+1)² - 1` and hence the integer type fitted
to that bound, the smallest of the available widths that holds it. -/
theorem generate_pairs_roundtrip (max_ind : ℕ) (triplets : List (ℕ × ℕ × ℕ))
    (hbound : ∀ t ∈ triplets, t.1 ≤ max_ind ∧ t.2.1 ≤ max_ind ∧ t.2.2 ≤ max_ind) :
    (generate_pairs_keys max_ind triplets).length = 2 * triplets.length ∧
    (∀ t ∈ triplets,
      (t.1 + (max_ind + 1) * t.2.2) % (max_ind + 1) = t.1 ∧
      (t.1 + (max_ind + 1) * t.2.2) / (max_ind + 1) = t.2.2 ∧
      (t.2.1 + (max_ind + 1) * t.2.2) % (max_ind + 1) = t.2.1 ∧
      (t.2.1 + (max_ind + 1) * t.2.2) / (max_ind + 1) = t.2.2) ∧
    (∀ k ∈ generate_pairs_keys max_ind triplets, k ≤ (max_ind + 1) ^ 2 - 1) ∧
    (max_ind + 1 ≤ 2 ^ 32 →
      ∀ k ∈ generate_pairs_keys max_ind triplets,
        k < 2 ^ fit_integer_type ((max_ind + 1) ^ 2 - 1)) ∧
    (∀ w, (w = 8 ∨ w = 16 ∨ w = 32 ∨ w = 64) → (max_ind + 1) ^ 2 - 1 < 2 ^ w →
      fit_integer_type ((max_ind + 1) ^ 2 - 1) ≤ w) := by
  have hm : 0 < max_ind + 1 := Nat.succ_pos _
  have hkey : ∀ k ∈ generate_pairs_keys max_ind triplets,
      k ≤ (max_ind + 1) ^ 2 - 1 := by
    intro k hk
    unfold generate_pairs_keys at hk
    rw [List.mem_flatMap] at hk
    rcases hk with ⟨t, ht, hkt⟩
    rcases hbound t ht with ⟨ha, hb, hx⟩
    simp only [List.mem_cons, List.not_mem_nil, or_false] at hkt
    rcases hkt with h | h
    · rw [h]; exact pair_key_le max_ind t.1 t.2.2 ha hx
    · rw [h]; exact pair_key_le max_ind t.2.1 t.2.2 hb hx
  refine ⟨generate_pairs_keys_length max_ind triplets, fun t ht => ?_, hkey,
    fun h32 k hk => ?_, fun w hw hfit => fit_integer_type_min _ w hw hfit⟩
  · rcases hbound t ht with ⟨ha, hb, hx⟩
    refine ⟨?_, ?_, ?_, ?_⟩
    · rw [Nat.add_mul_mod_self_left]
      exact Nat.mod_eq_of_lt (Nat.lt_succ_of_le ha)
    · rw [Nat.add_mul_div_left _ _ hm, Nat.div_eq_of_lt (Nat.lt_succ_of_le ha)]
      exact Nat.zero_add _
    · rw [Nat.add_mul_mod_self_left]
      exact Nat.mod_eq_of_lt (Nat.lt_succ_of_le hb)
    · rw [Nat.add_mul_div_left _ _ hm, Nat.div_eq_of_lt (Nat.lt_succ_of_le hb)]
      exact Nat.zero_add _
  · have hsq : (max_ind + 1) ^ 2 ≤ 2 ^ 64 := by
      calc (max_ind + 1) ^ 2 ≤ (2 ^ 32) ^ 2 := Nat.pow_le_pow_left h32 2
        _ = 2 ^ 64 := by norm_num
    have hlt : (max_ind + 1) ^ 2 - 1 < 2 ^ 64 := by
      have : 0 < (max_ind + 1) ^ 2 := Nat.pos_pow_of_pos 2 hm
      omega
    exact Nat.lt_of_le_of_lt (hkey k hk) (fit_integer_type_holds _ hlt)

/-- C4 witness: a by group with `max_ind = 3` (the end-to-end scenario of
the spec, triplet `(0, 2, 1)`): the emitted keys are `AX = 4`, `BX = 6`,
they decode back to `(0, 1)` and `(2, 1)`, and they fit the fitted type. -/
theorem generate_pairs_roundtrip_witness :
    (generate_pairs_keys 3 [(0, 2, 1)]).length = 2 * ([(0, 2, 1)] : List (ℕ × ℕ × ℕ)).length ∧
    (∀ t ∈ ([(0, 2, 1)] : List (ℕ × ℕ × ℕ)),
      (t.1 + (3 + 1) * t.2.2) % (3 + 1) = t.1 ∧
      (t.1 + (3 + 1) * t.2.2) / (3 + 1) = t.2.2 ∧
      (t.2.1 + (3 + 1) * t.2.2) % (3 + 1) = t.2.1 ∧
      (t.2.1 + (3 + 1) * t.2.2) / (3 + 1) = t.2.2) ∧
    (∀ k ∈ generate_pairs_keys 3 [(0, 2, 1)], k ≤ (3 + 1) ^ 2 - 1) ∧
    (3 + 1 ≤ 2 ^ 32 →
      ∀ k ∈ generate_pairs_keys 3 [(0, 2, 1)],
        k < 2 ^ fit_integer_type ((3 + 1) ^ 2 - 1)) ∧
    (∀ w, (w = 8 ∨ w = 16 ∨ w = 32 ∨ w = 64) → (3 + 1) ^ 2 - 1 < 2 ^ w →
      fit_integer_type ((3 + 1) ^ 2 - 1) ≤ w) :=
  generate_pairs_roundtrip 3 [(0, 2, 1)] (by decide)

/-- The per-run selection loop of `sort_and_threshold` (lines 1073-1083):
walking the run lengths `counts` with running offset `i`, a run longer
than a positive threshold is replaced by `threshold` positions drawn by
`sample_without_replacement` (passed in as `swr`), shifted by `i` and
used to index `permut`; a short run passes `permut[i:i+c]` through.
`threshold = 0` models the falsy `None`/`False` threshold. -/
def thresholdLoop (swr : ℕ → ℕ → List ℕ) (permut : List ℕ) (threshold : ℕ) :
    List ℕ → ℕ → List ℕ
  | [], _ => []
  | c :: cs, i =>
      (if 0 < threshold ∧ threshold < c then
        (swr threshold c).map (fun j => permut.getD (i + j) 0)
      else (permut.drop i).take c) ++ thresholdLoop swr permut threshold cs (i + c)

/-- `sort_and_threshold` (lines 1059-1084, `count_only=False` path):
given a permutation presorting the regressor signatures `new_index`, a
change flag `[True] ++ (sorted[1:] != sorted[:-1]) ++ [True]` marks run
boundaries; `unique_idx` is its list of true positions, `counts` the
consecutive differences, and the retained permutation is assembled by
the per-run loop.  The sampler `sample_without_replacement` lives in
`ABXpy.sampling.sampler`, outside `src/`; it is passed in as the opaque
function `swr`, constrained in the theorems by its spec contract
(draws without replacement from `[0, n)`). -/
def sort_and_threshold (swr : ℕ → ℕ → List ℕ) (permut : List ℕ)
    (new_index : ℕ → ℕ) (threshold : ℕ) : List ℕ × List ℕ :=
  let sorted_index := permut.map new_index
  let flag := true ::
    ((sorted_index.tail.zip sorted_index).map (fun p => decide (¬ p.1 = p.2))) ++ [true]
  let unique_idx := (List.range flag.length).filter (fun i => flag.getD i false)
  let counts := (unique_idx.tail.zip unique_idx).map (fun p => p.1 - p.2)
  (thresholdLoop swr permut threshold counts 0, unique_idx)

/-- Lengths of the maximal runs of equal adjacent values of a list (the
spec-side notion of signature runs; with the signatures presorted these
are exactly the groups of triplets sharing one signature). -/
def runLengths {γ : Type} [DecidableEq γ] : List γ → List ℕ
  | [] => []
  | [_] => [1]
  | a :: b :: l =>
    if a = b then
      match runLengths (b :: l) with
      | [] => [1]
      | k :: ks => (k + 1) :: ks
    else 1 :: runLengths (b :: l)

/-- Splitting a list into consecutive segments of the given lengths. -/
def splitByCounts {γ : Type} : List γ → List ℕ → List (List γ)
  | _, [] => []
  | l, c :: cs => l.take c :: splitByCounts (l.drop c) cs

/-- The per-run selection of the spec: a run of length at most `T`
passes through unchanged, a longer run is reduced to the `T` sampled
positions. -/
def chooseRun (swr : ℕ → ℕ → List ℕ) (threshold : ℕ) (s : List ℕ) : List ℕ :=
  if 0 < threshold ∧ threshold < s.length then
    (swr threshold s.length).map (fun j => s.getD j 0)
  else s

/-- Positions of `true` in a boolean list (`np.nonzero(flag)[0]`). -/
def trueIdx (bs : List Bool) : List ℕ :=
  (List.range bs.length).filter (fun i => bs.getD i false)

theorem trueIdx_cons (b : Bool) (bs : List Bool) :
    trueIdx (b :: bs) = (if b then [0] else []) ++ (trueIdx bs).map (· + 1) := by
  unfold trueIdx
  rw [List.length_cons, List.range_succ_eq_map, List.filter_cons]
  have h1 : ((b :: bs).getD 0 false) = b := rfl
  have h2 : ((List.range bs.length).map Nat.succ).filter
      (fun i => (b :: bs).getD i false) =
      ((List.range bs.length).filter (fun i => bs.getD i false)).map Nat.succ := by
    rw [List.filter_map]
    refine congrArg _ (List.filter_congr (fun i _ => ?_))
    rfl
  rw [h1, h2]
  cases b
  · simp
  · simp

theorem scanl_add_head (x : ℕ) (rs : List ℕ) :
    List.scanl (· + ·) x rs = x :: (List.scanl (· + ·) x rs).tail := by
  cases rs
  · rfl
  · rw [List.scanl_cons]
    simp

theorem scanl_add_one (rs : List ℕ) (x : ℕ) :
    List.scanl (· + ·) (x + 1) rs = (List.scanl (· + ·) x rs).map (· + 1) := by
  induction rs generalizing x with
  | nil => rfl
  | cons r rs ih =>
    rw [List.scanl_cons, List.scanl_cons, List.map_append]
    have hx : x + 1 + r = x + r + 1 := by omega
    rw [hx, ih]
    rfl

theorem runLengths_ne_nil {γ : Type} [DecidableEq γ] (l : List γ) (hl : l ≠ []) :
    runLengths l ≠ [] := by
  cases l with
  | nil => exact absurd rfl hl
  | cons a l =>
    cases l with
    | nil => simp [runLengths]
    | cons b l =>
      unfold runLengths
      by_cases hab : a = b
      · rw [if_pos hab]
        cases hk : runLengths (b :: l) <;> simp
      · rw [if_neg hab]
        simp

theorem runLengths_sum {γ : Type} [DecidableEq γ] (l : List γ) :
    (runLengths l).sum = l.length := by
  induction l with
  | nil => rfl
  | cons a l ih =>
    cases l with
    | nil => simp [runLengths]
    | cons b l =>
      unfold runLengths
      by_cases hab : a = b
      · rw [if_pos hab]
        cases hk : runLengths (b :: l) with
        | nil => exact absurd hk (runLengths_ne_nil _ (by simp))
        | cons k ks =>
          rw [hk] at ih
          simp only [List.sum_cons] at ih ⊢
          simp only [List.length_cons] at ih ⊢
          omega
      · rw [if_neg hab]
        simp only [List.sum_cons, ih, List.length_cons]
        omega

theorem tailIdx_eq (l : List ℕ) (hl : l ≠ []) :
    (trueIdx (((l.tail.zip l).map (fun p => decide (¬ p.1 = p.2))) ++ [true])).map (· + 1) =
      (List.scanl (· + ·) 0 (runLengths l)).tail := by
  induction l with
  | nil => exact absurd rfl hl
  | cons a l ih =>
    cases l with
    | nil => rfl
    | cons b l =>
      have hbl : (b :: l) ≠ [] := by simp
      have hpf : ((a :: b :: l).tail.zip (a :: b :: l)).map (fun p => decide (¬ p.1 = p.2)) =
          decide (¬ b = a) ::
            ((b :: l).tail.zip (b :: l)).map (fun p => decide (¬ p.1 = p.2)) := rfl
      rw [hpf, List.cons_append, trueIdx_cons]
      cases hk : runLengths (b :: l) with
      | nil => exact absurd hk (runLengths_ne_nil _ hbl)
      | cons k ks =>
        have ihk := ih hbl
        rw [hk] at ihk
        by_cases hab : a = b
        · have hd : decide (¬ b = a) = false := by simp [hab]
          have hrl : runLengths (a :: b :: l) = (k + 1) :: ks := by
            unfold runLengths
            rw [if_pos hab, hk]
          rw [hd, hrl]
          simp only [Bool.false_eq_true, if_false, List.nil_append]
          rw [ihk]
          rw [List.scanl_cons, List.scanl_cons]
          simp only [List.singleton_append, List.tail_cons]
          simp [scanl_add_one]
        · have hd : decide (¬ b = a) = true := decide_eq_true (fun h => hab h.symm)
          have hrl : runLengths (a :: b :: l) = 1 :: k :: ks := by
            unfold runLengths
            rw [if_neg hab, hk]
          rw [hd, hrl]
          simp only [if_true, List.cons_append, List.nil_append, List.map_cons]
          rw [ihk]
          rw [List.scanl_cons, List.scanl_cons, List.scanl_cons]
          simp only [List.singleton_append, List.tail_cons]
          refine congrArg (1 :: ·) ?_
          rw [Nat.add_comm 1 k, scanl_add_one]
          simp

theorem uniqueIdx_eq_scanl (l : List ℕ) (hl : l ≠ []) :
    trueIdx (true :: ((l.tail.zip l).map (fun p => decide (¬ p.1 = p.2))) ++ [true]) =
      List.scanl (· + ·) 0 (runLengths l) := by
  rw [List.cons_append, trueIdx_cons]
  simp only [if_true]
  rw [tailIdx_eq l hl]
  cases hk : runLengths l with
  | nil => exact absurd hk (runLengths_ne_nil _ hl)
  | cons k ks =>
    rw [List.scanl_cons]
    simp only [List.singleton_append, List.tail_cons]

theorem scanl_diffs : ∀ (rs : List ℕ) (x : ℕ),
    ((List.scanl (· + ·) x rs).tail.zip (List.scanl (· + ·) x rs)).map
      (fun p => p.1 - p.2) = rs
  | [], _ => rfl
  | r :: rs, x => by
    rw [List.scanl_cons]
    cases hs : List.scanl (· + ·) (x + r) rs with
    | nil =>
      exfalso
      have h2 := scanl_add_head (x + r) rs
      rw [hs] at h2
      exact List.noConfusion h2
    | cons y T =>
      have h2 := scanl_add_head (x + r) rs
      rw [hs] at h2
      have hy : y = x + r := (List.cons.injEq _ _ _ _ ▸ h2.symm).1.symm
      subst hy
      have ihk := scanl_diffs rs (x + r)
      rw [hs] at ihk
      simp only [List.singleton_append, List.tail_cons, hs, List.zip_cons_cons,
        List.map_cons]
      rw [Nat.add_sub_cancel_left]
      simp only [List.tail_cons] at ihk
      rw [ihk]

theorem thresholdLoop_eq_segments (swr : ℕ → ℕ → List ℕ) (permut : List ℕ) (T : ℕ) :
    ∀ (cs : List ℕ) (i : ℕ),
      (∀ c ∈ cs, T < c → ∀ j ∈ swr T c, j < c) →
      i + cs.sum ≤ permut.length →
      thresholdLoop swr permut T cs i =
        ((splitByCounts (permut.drop i) cs).map (chooseRun swr T)).flatten
  | [], i => by
    intro _ _
    rfl
  | c :: cs, i => by
    intro hswr hle
    unfold thresholdLoop splitByCounts
    rw [List.map_cons, List.flatten_cons]
    have hlen : ((permut.drop i).take c).length = c := by
      rw [List.length_take, List.length_drop]
      simp only [List.sum_cons] at hle
      omega
    have hseg : (if 0 < T ∧ T < c then
        (swr T c).map (fun j => permut.getD (i + j) 0)
      else (permut.drop i).take c) = chooseRun swr T ((permut.drop i).take c) := by
      unfold chooseRun
      rw [hlen]
      by_cases hcond : 0 < T ∧ T < c
      · rw [if_pos hcond, if_pos hcond]
        refine List.map_congr_left (fun j hj => ?_)
        have hjc : j < c := hswr c (List.mem_cons_self _ _) hcond.2 j hj
        rw [List.getD_eq_getElem?_getD, List.getD_eq_getElem?_getD,
          List.getElem?_take_of_lt hjc, List.getElem?_drop]
      · rw [if_neg hcond, if_neg hcond]
    rw [hseg]
    refine congrArg (chooseRun swr T ((permut.drop i).take c) ++ ·) ?_
    have hrest := thresholdLoop_eq_segments swr permut T cs (i + c)
      (fun d hd => hswr d (List.mem_cons_of_mem _ hd))
      (by simp only [List.sum_cons] at hle; omega)
    rw [hrest, List.drop_drop]

/-- C5: with a positive threshold `T` and an index array presorted by
signature through `permut`, `sort_and_threshold` splits the sorted
signatures into their maximal runs: the retained permutation is exactly
the concatenation of the per-run selections, where a run of length
`L ≤ T` passes through unchanged in its original order and a run of
length `L > T` is replaced by `T` positions drawn without replacement
from inside that run, so each run retains exactly `min(L, T)` entries;
the returned boundary array is the scan of the run lengths, whose `k`-th
entry is the starting offset of the `k`-th signature run (with a final
entry equal to the total length). -/
theorem sort_and_threshold_spec (swr : ℕ → ℕ → List ℕ) (permut : List ℕ)
    (new_index : ℕ → ℕ) (T : ℕ)
    (hT : 0 < T) (hne : permut ≠ [])
    (hsorted : List.Sorted (· ≤ ·) (permut.map new_index))
    (hswr : ∀ k n, k < n →
      (swr k n).length = k ∧ (swr k n).Nodup ∧ ∀ j ∈ swr k n, j < n) :
    sort_and_threshold swr permut new_index T =
      (((splitByCounts permut (runLengths (permut.map new_index))).map
          (chooseRun swr T)).flatten,
        List.scanl (· + ·) 0 (runLengths (permut.map new_index))) ∧
    (∀ s ∈ splitByCounts permut (runLengths (permut.map new_index)),
      (chooseRun swr T s).length = min s.length T ∧
      (s.length ≤ T → chooseRun swr T s = s) ∧
      (∀ v ∈ chooseRun swr T s, v ∈ s)) := by
  have hl : permut.map new_index ≠ [] := by
    intro h
    exact hne (List.map_eq_nil_iff.mp h)
  have htIdx : ∀ bs : List Bool,
      (List.range bs.length).filter (fun i => bs.getD i false) = trueIdx bs :=
    fun _ => rfl
  constructor
  · unfold sort_and_threshold
    simp only []
    rw [htIdx, uniqueIdx_eq_scanl (permut.map new_index) hl]
    have hcounts : ((List.scanl (· + ·) 0 (runLengths (permut.map new_index))).tail.zip
        (List.scanl (· + ·) 0 (runLengths (permut.map new_index)))).map
          (fun p => p.1 - p.2) = runLengths (permut.map new_index) :=
      scanl_diffs (runLengths (permut.map new_index)) 0
    rw [hcounts]
    refine congrArg (·, List.scanl (· + ·) 0 (runLengths (permut.map new_index))) ?_
    have hsum : 0 + (runLengths (permut.map new_index)).sum ≤ permut.length := by
      rw [Nat.zero_add, runLengths_sum, List.length_map]
    have hseg := thresholdLoop_eq_segments swr permut T
      (runLengths (permut.map new_index)) 0
      (fun c _ hTc j hj => (hswr T c hTc).2.2 j hj) hsum
    rw [hseg, List.drop_zero]
  · intro s _
    unfold chooseRun
    by_cases hcond : 0 < T ∧ T < s.length
    · rw [if_pos hcond]
      rcases hswr T s.length hcond.2 with ⟨hlen, _, hmem⟩
      refine ⟨?_, ?_, ?_⟩
      · rw [List.length_map, hlen, Nat.min_eq_right (Nat.le_of_lt hcond.2)]
      · intro habs
        omega
      · intro v hv
        rw [List.mem_map] at hv
        rcases hv with ⟨j, hj, hvj⟩
        rw [← hvj, List.getD_eq_getElem?_getD,
          List.getElem?_eq_getElem (hmem j hj)]
        exact List.getElem_mem _
    · rw [if_neg hcond]
      have hsT : s.length ≤ T := by omega
      exact ⟨(Nat.min_eq_left hsT).symm, fun _ => rfl, fun v hv => hv⟩

/-- C5 witness: a concrete instance with `T = 1`, signature array
`[4, 7, 7]` (one run of length 1 and one of length 2) and the sampler
`swr k n = range k`. -/
theorem sort_and_threshold_spec_witness :
    (sort_and_threshold (fun k _ => List.range k) [0, 1, 2]
        (fun i => if i = 0 then 4 else 7) 1 =
      (((splitByCounts [0, 1, 2]
          (runLengths (([0, 1, 2] : List ℕ).map (fun i => if i = 0 then 4 else 7)))).map
            (chooseRun (fun k _ => List.range k) 1)).flatten,
        List.scanl (· + ·) 0
          (runLengths (([0, 1, 2] : List ℕ).map (fun i => if i = 0 then 4 else 7)))) ∧
    (∀ s ∈ splitByCounts [0, 1, 2]
        (runLengths (([0, 1, 2] : List ℕ).map (fun i => if i = 0 then 4 else 7))),
      (chooseRun (fun k _ => List.range k) 1 s).length = min s.length 1 ∧
      (s.length ≤ 1 → chooseRun (fun k _ => List.range k) 1 s = s) ∧
      (∀ v ∈ chooseRun (fun k _ => List.range k) 1 s, v ∈ s))) :=
  sort_and_threshold_spec (fun k _ => List.range k) [0, 1, 2]
    (fun i => if i = 0 then 4 else 7) 1 (by decide) (by decide)
    (by decide)
    (fun k n hkn => ⟨List.length_range k, List.nodup_range k,
      fun j hj => Nat.lt_of_lt_of_le (List.mem_range.mp hj) (Nat.le_of_lt hkn)⟩)

/-- Numpy fancy indexing `l[idxs]` for a one-dimensional integer array. -/
def selectIdx (idxs : List ℕ) (l : List ℕ) : List ℕ :=
  idxs.map (fun r => l.getD r 0)

/-- Numpy fancy indexing for the triplet array. -/
def selectIdx3 (idxs : List ℕ) (l : List (ℕ × ℕ × ℕ)) : List (ℕ × ℕ × ℕ) :=
  idxs.map (fun r => l.getD r (0, 0, 0))

/-- A boolean row mask, as the list of row positions where the predicate
holds (indexing with a boolean mask keeps exactly those rows, in order). -/
def maskTrue (p : (ℕ × ℕ × ℕ) → Bool) (l : List (ℕ × ℕ × ℕ)) : List ℕ :=
  (List.range l.length).filter (fun r => p (l.getD r (0, 0, 0)))

/-- One insertion step of the deterministic argsort model. -/
def insertByKey (key : ℕ → ℕ) (i : ℕ) : List ℕ → List ℕ
  | [] => [i]
  | j :: l => if key i < key j then i :: j :: l else j :: insertByKey key i l

/-- Deterministic model of `np.argsort(new_index)` (line 541): a
permutation of `range n` ordering rows by their key.  (The exact
permutation among rows with equal keys is unspecified in numpy's
quicksort; the insertion sort here is one deterministic choice.) -/
def argsort (key : ℕ → ℕ) (n : ℕ) : List ℕ :=
  (List.range n).foldr (insertByKey key) []

def regSigGo (acc : ℕ) (cs : List (List ℕ)) (r : ℕ) : ℕ :=
  match cs with
  | [] => acc
  | c :: cs => regSigGo (c.getD r 0 + (c.foldr max 0 + 1) * acc) cs r

/-- The dense regressor-signature encoding of lines 530-540: starting
from the first column, each further column contributes
`new_index = regs[:, i] + n_regs[i] * new_index`, where
`n_regs[i] = max(regs[:, i]) + 1` is the column's radix. -/
def regSignatureCols (cols : List (List ℕ)) (r : ℕ) : ℕ :=
  match cols with
  | [] => 0
  | c0 :: cs => regSigGo (c0.getD r 0) cs r

/-- The regressor values attached to a task, as opaque evaluators (the
regressor collaborators of §6; `RegressorManager` is outside the core):
`byRegs`/`onAcrossByRegs` are the scalar values of the by- and
on-across-by-scoped regressors for the current block, and
`Aregs`/`Bregs`/`Xregs` map an item index to the item's value of each
A-, B- or X-scoped regressor (the source caches these as arrays parallel
to the candidate sets). -/
structure RegSpec where
  byRegs : List ℕ
  onAcrossByRegs : List ℕ
  Aregs : List (ℕ → ℕ)
  Bregs : List (ℕ → ℕ)
  Xregs : List (ℕ → ℕ)

/-- `on_across_triplets` with `with_regressors=True` (lines 434-633).
Returns the triplet rows, the regressor columns (in the order by,
on-across-by, A, B, X scoped) and the block-relative
`on_across_block_index`.  `sampling` is `IncrementalSampler.sample`
(outside `src/`) when `self.sampling` is set, `swr` is
`sample_without_replacement` for the thresholding step, `threshold = 0`
models a falsy threshold.  After building the candidate sets and
decoding the (sampled or enumerated) linear indices, the `ABX` filter
mask and the sample mask are applied; when at least one B- or X-scoped
regressor column exists and a row survives, rows are reindexed by the
mixed-radix regressor signature and `sort_and_threshold` produces the
final permutation `thr_sort_permut`, which is applied to the triplets;
otherwise the source leaves the triplets unpermuted but still defines
`thr_sort_permut = np.empty(shape=0)` (line 556) and indexes every A-,
B- and X-scoped regressor column with it (lines 597-625). -/
def on_across_triplets_reg {α β : Type} [DecidableEq α] [DecidableEq β]
    (F : ByFrame α β) (filt : Filters α β) (regs : RegSpec)
    (sampling : Option (ℕ → List ℕ)) (swr : ℕ → ℕ → List ℕ) (threshold : ℕ)
    (o : α) (c : List β) :
    List (ℕ × ℕ × ℕ) × List (List ℕ) × List ℕ :=
  let A := applySingletonFilter filt.A (candidateA F o c)
  let B := applySingletonFilter filt.B (candidateB F o c)
  let X := applySingletonFilter filt.X (candidateX F o c)
  let size := A.length * B.length * X.length
  if 0 < size then
    let indices := match sampling, filt.ABX with
      | some s, none => s size
      | _, _ => List.range size
    let iX := indices.map (fun i => i % X.length)
    let iB := indices.map (fun i => i / X.length % B.length)
    let iA := indices.map (fun i => i / (B.length * X.length))
    let triplets0 := indices.map (fun i =>
      (A.getD (i / (B.length * X.length)) 0,
       B.getD (i / X.length % B.length) 0,
       X.getD (i % X.length) 0))
    let ABX_filter_ind : Option (List ℕ) := filt.ABX.map (fun p => maskTrue p triplets0)
    let triplets1 := match ABX_filter_ind with
      | none => triplets0
      | some m => selectIdx3 m triplets0
    let ABX_sample_ind : Option (List ℕ) :=
      match filt.ABX, sampling with
      | some _, some s => some (s triplets1.length)
      | _, _ => none
    let triplets2 := match ABX_sample_ind with
      | none => triplets1
      | some m => selectIdx3 m triplets1
    let applyMasks := fun (col : List ℕ) =>
      let col1 := match ABX_filter_ind with
        | none => col
        | some m => selectIdx m col
      match ABX_sample_ind with
      | none => col1
      | some m => selectIdx m col1
    let Bcols := regs.Bregs.map (fun f => applyMasks (selectIdx iB (B.map f)))
    let Xcols := regs.Xregs.map (fun f => applyMasks (selectIdx iX (X.map f)))
    let combined := Bcols ++ Xcols
    let useSort := decide (combined ≠ []) && decide (triplets2.length ≠ 0)
    let sigKey := regSignatureCols combined
    let permut := argsort sigKey triplets2.length
    let sorted := sort_and_threshold swr permut sigKey threshold
    let thr_sort_permut := if useSort then sorted.1 else []
    let obi := if useSort then sorted.2 else [0]
    let tripletsF := if useSort then selectIdx3 sorted.1 triplets2 else triplets2
    let finalize := fun (col : List ℕ) => selectIdx thr_sort_permut (applyMasks col)
    let scalarCols := (regs.byRegs ++ regs.onAcrossByRegs).map
      (fun v => List.replicate tripletsF.length v)
    let Afinal := regs.Aregs.map (fun f => finalize (selectIdx iA (A.map f)))
    let Bfinal := regs.Bregs.map (fun f => finalize (selectIdx iB (B.map f)))
    let Xfinal := regs.Xregs.map (fun f => finalize (selectIdx iX (X.map f)))
    (tripletsF, scalarCols ++ Afinal ++ Bfinal ++ Xfinal, obi)
  else
    ([],
     (regs.byRegs ++ regs.onAcrossByRegs).map (fun _ => ([] : List ℕ)) ++
       regs.Aregs.map (fun _ => ([] : List ℕ)) ++
       regs.Bregs.map (fun _ => ([] : List ℕ)) ++
       regs.Xregs.map (fun _ => ([] : List ℕ)),
     [0])

/-- C6 evaluation at the failing input: a nonempty block (candidate sets
`A = [0]`, `B = [2]`, `X = [1]`, one triplet `(0, 2, 1)`) with a single
A-scoped regressor and no B- or X-scoped regressor.  The signature array
`Breg + Xreg` is empty, so the source defines `thr_sort_permut` as the
empty array (line 556), leaves the triplet rows alone, yet still indexes
the A-scoped regressor column with it: the returned mapping carries a
0-row regressor against 1 triplet row.  With a B-scoped regressor added,
the same block returns row-aligned regressors (both columns of length
1), isolating the slip to the empty-signature case. -/
theorem regressor_row_misalignment :
    ((on_across_triplets_reg (ByFrame.mk [0, 1, 2] (fun i => i / 2) [fun i => i] true)
        (Filters.mk none none none none none)
        (RegSpec.mk [] [] [fun i => i + 10] [] [])
        none (fun k _ => List.range k) 0 0 [0]).1.length = 1 ∧
      (on_across_triplets_reg (ByFrame.mk [0, 1, 2] (fun i => i / 2) [fun i => i] true)
        (Filters.mk none none none none none)
        (RegSpec.mk [] [] [fun i => i + 10] [] [])
        none (fun k _ => List.range k) 0 0 [0]).2.1 = [[]]) ∧
    ((on_across_triplets_reg (ByFrame.mk [0, 1, 2] (fun i => i / 2) [fun i => i] true)
        (Filters.mk none none none none none)
        (RegSpec.mk [] [] [fun i => i + 10] [fun i => i + 20] [])
        none (fun k _ => List.range k) 0 0 [0]).1.length = 1 ∧
      ((on_across_triplets_reg (ByFrame.mk [0, 1, 2] (fun i => i / 2) [fun i => i] true)
        (Filters.mk none none none none none)
        (RegSpec.mk [] [] [fun i => i + 10] [fun i => i + 20] [])
        none (fun k _ => List.range k) 0 0 [0]).2.1.map List.length = [1, 1])) := by
  constructor
  · constructor <;> rfl
  · constructor <;> rfl

/-- The on-across block keys of a by group, as produced by
`groupby(on + across)`: the distinct `(on value, across tuple)` pairs of
its items. -/
def frameBlocks {α β : Type} [DecidableEq α] [DecidableEq β]
    (F : ByFrame α β) : List (α × List β) :=
  (F.index.map (fun i => (F.onCol i, acrossTuple F i))).dedup

/-- `stats['block_sizes'][block_key]` (lines 369-398): the per-block
count for a passing block, and 0 for a block rejected by the
on-across-by filter. -/
def block_size_stat {α β : Type} [DecidableEq α] [DecidableEq β]
    (F : ByFrame α β) (filt : Filters α β) (approximate : Bool)
    (key : α × List β) : ℕ :=
  if passesOnAcrossBy filt key.1 key.2 then
    block_triplet_count F filt approximate key.1 key.2
  else 0

/-- A whole task: the retained by groups. -/
structure TaskModel (α β : Type) where
  frames : List (ByFrame α β)

/-- `stats['nb_triplets']` (lines 400-401): the block counts summed over
every block of every by group. -/
def total_nb_triplets {α β : Type} [DecidableEq α] [DecidableEq β]
    (Tk : TaskModel α β) (filt : Filters α β) (approximate : Bool) : ℕ :=
  (Tk.frames.map (fun F =>
    ((frameBlocks F).map (fun key => block_size_stat F filt approximate key)).sum)).sum

/-- `stats['approximate_nb_triplets']` (lines 319-320): true when
`compute_statistics` was asked for the cheap estimate and some
A/B/X/ABX filter is active. -/
def approximate_nb_triplets {α β : Type} (approximate : Bool)
    (filt : Filters α β) : Bool :=
  approximate && anyFilter filt

/-- The three ways the entry of `generate_triplets` can go. -/
inductive GenOutcome
  | emptyWarning
  | approxSampleError
  | proceed
deriving DecidableEq

/-- The entry control flow of `generate_triplets` (lines 660-689) plus
the triplets written on the proceed path: a zero total count warns and
returns before anything is created (lines 660-663); otherwise a sample
request on approximate statistics raises before the output file is
opened (lines 675-679); otherwise generation proceeds over every by
group and every passing block (`_compute_triplets`, lines 782-801).
The written rows are recorded for the non-sampling semantics (the
incremental sampler, outside `src/`, is elided; the gating claims only
use the first two branches and the shape of the proceed branch). -/
def generate_triplets_result {α β : Type} [DecidableEq α] [DecidableEq β]
    (Tk : TaskModel α β) (filt : Filters α β) (approximate : Bool)
    (sample : Option ℕ) : GenOutcome × List (ℕ × ℕ × ℕ) :=
  if total_nb_triplets Tk filt approximate = 0 then (.emptyWarning, [])
  else if sample.isSome && approximate_nb_triplets approximate filt then
    (.approxSampleError, [])
  else
    (.proceed, Tk.frames.flatMap (fun F => (frameBlocks F).flatMap (fun key =>
      if passesOnAcrossBy filt key.1 key.2 then
        on_across_triplets_noreg F filt key.1 key.2
      else [])))

/-- C7 counterexample to the original claim: a task whose only block is
empty (one item, so `n_X = 0`) with an active A filter and statistics
computed with `approximate=True`: `approximate_nb_triplets` is true and
a sample is requested, yet `generate_triplets` does not raise — the
zero-triplet warning short-circuits first (line 660 precedes line 677). -/
theorem sampling_approx_error_counterexample :
    approximate_nb_triplets true
        (Filters.mk (some (fun _ => false)) none none none none : Filters ℕ ℕ) = true ∧
    generate_triplets_result
        (TaskModel.mk [ByFrame.mk [0] (fun _ => 0) [fun i => i] true])
        (Filters.mk (some (fun _ => false)) none none none none) true (some 5) =
      (GenOutcome.emptyWarning, []) ∧
    GenOutcome.emptyWarning ≠ GenOutcome.approxSampleError := by
  refine ⟨rfl, rfl, ?_⟩
  decide

/-- C7 (amended): provided the task's total triplet count is nonzero, a
call of `generate_triplets` with a sample count raises immediately when
`stats['approximate_nb_triplets']` is true — before the output file is
opened, so nothing is written — and proceeds to generation when the
counts are exact.  (When the total count is zero the empty-task warning
returns first and no error is raised.) -/
theorem sampling_approx_error {α β : Type} [DecidableEq α] [DecidableEq β]
    (Tk : TaskModel α β) (filt : Filters α β) (approx : Bool) (k : ℕ)
    (h0 : total_nb_triplets Tk filt approx ≠ 0) :
    (approximate_nb_triplets approx filt = true →
      generate_triplets_result Tk filt approx (some k) = (.approxSampleError, [])) ∧
    (approximate_nb_triplets approx filt = false →
      (generate_triplets_result Tk filt approx (some k)).1 = .proceed) := by
  constructor
  · intro hap
    unfold generate_triplets_result
    rw [if_neg h0, hap]
    rfl
  · intro hap
    unfold generate_triplets_result
    rw [if_neg h0, hap]
    rfl

/-- C7 witness: a three-item task (total count 2): with an A filter and
`approximate=True` a sample request errors; with no filter it proceeds. -/
theorem sampling_approx_error_witness :
    generate_triplets_result
        (TaskModel.mk [ByFrame.mk [0, 1, 2] (fun i => i / 2) [fun i => i] true])
        (Filters.mk (some (fun _ => false)) none none none none) true (some 5) =
      (GenOutcome.approxSampleError, []) ∧
    (generate_triplets_result
        (TaskModel.mk [ByFrame.mk [0, 1, 2] (fun i => i / 2) [fun i => i] true])
        (Filters.mk none none none none none) false (some 5)).1 =
      GenOutcome.proceed :=
  ⟨(sampling_approx_error
      (TaskModel.mk [ByFrame.mk [0, 1, 2] (fun i => i / 2) [fun i => i] true])
      (Filters.mk (some (fun _ => false)) none none none none) true 5
      (by decide)).1 rfl,
   (sampling_approx_error
      (TaskModel.mk [ByFrame.mk [0, 1, 2] (fun i => i / 2) [fun i => i] true])
      (Filters.mk none none none none none) false 5
      (by decide)).2 rfl⟩

/-- C8: when the task's total triplet count is zero, `generate_triplets`
emits the non-fatal empty-task warning and returns before the output
file is created, writing no triplets (and hence no regressor or pair
datasets, which are derived from them); indeed with exact statistics a
zero total means every passing block generates an empty triplet array. -/
theorem empty_task_short_circuit {α β : Type} [DecidableEq α] [DecidableEq β]
    (Tk : TaskModel α β) (filt : Filters α β) (approx : Bool) (sample : Option ℕ)
    (h : total_nb_triplets Tk filt approx = 0) :
    generate_triplets_result Tk filt approx sample = (.emptyWarning, []) ∧
    (approx = false → ∀ F ∈ Tk.frames, ∀ key ∈ frameBlocks F,
      passesOnAcrossBy filt key.1 key.2 = true →
      on_across_triplets_noreg F filt key.1 key.2 = []) := by
  constructor
  · unfold generate_triplets_result
    rw [if_pos h]
  · intro hax F hF key hkey hpass
    subst hax
    have h1 : ((frameBlocks F).map
        (fun key => block_size_stat F filt false key)).sum = 0 := by
      unfold total_nb_triplets at h
      rw [List.sum_eq_zero_iff] at h
      exact h _ (List.mem_map_of_mem _ hF)
    have h2 : block_size_stat F filt false key = 0 := by
      rw [List.sum_eq_zero_iff] at h1
      exact h1 _ (List.mem_map_of_mem _ hkey)
    unfold block_size_stat at h2
    rw [hpass] at h2
    simp only [if_true] at h2
    by_cases hcond : ((false || !anyFilter filt) &&
        decide (F.acrossCols.length ≤ 1)) = true
    · have hcond' := hcond
      simp only [Bool.and_eq_true, Bool.or_eq_true, Bool.not_eq_true',
        decide_eq_true_eq] at hcond'
      obtain ⟨hno', hlen⟩ := hcond'
      have hno : anyFilter filt = false := by
        rcases hno' with hx | hx
        · exact absurd hx (by simp)
        · exact hx
      rcases anyFilter_eq_false_fields filt hno with ⟨hA, hB, hX, hABX⟩
      have hgen : on_across_triplets_noreg F filt key.1 key.2 =
          materializeTriplets (candidateA F key.1 key.2) (candidateB F key.1 key.2)
            (candidateX F key.1 key.2) := by
        unfold on_across_triplets_noreg
        rw [hA, hB, hX, hABX]
        rfl
      have hXlen := length_candidateX_nontuple F key.1 key.2 hlen
      have hcount : block_triplet_count F filt false key.1 key.2 =
          (candidateA F key.1 key.2).length * (candidateB F key.1 key.2).length *
            (candidateX F key.1 key.2).length := by
        unfold block_triplet_count
        rw [if_pos hcond]
        by_cases hs : F.syntheticAcross = true
        · rw [if_pos hs, length_candidateB_synthetic F key.1 key.2 hs, hXlen]
          rfl
        · have hs' : F.syntheticAcross = false := by
            cases hsx : F.syntheticAcross
            · rfl
            · exact absurd hsx hs
          rw [if_neg (by rw [hs']; exact Bool.false_ne_true),
            length_candidateB_nonsynthetic F key.1 key.2 hs', hXlen]
          rfl
      rw [hcount] at h2
      rw [hgen]
      refine List.length_eq_zero.mp ?_
      rw [materializeTriplets_length]
      exact h2
    · have hcount : block_triplet_count F filt false key.1 key.2 =
          (on_across_triplets_noreg F filt key.1 key.2).length := by
        unfold block_triplet_count
        rw [if_neg hcond]
      rw [hcount] at h2
      exact List.length_eq_zero.mp h2

/-- C8 witness: a one-item task (its only block has `n_X = 0`, so the
total count is zero): generation warns, returns an empty output, and
every block's generation is empty. -/
theorem empty_task_short_circuit_witness :
    generate_triplets_result
        (TaskModel.mk [ByFrame.mk [0] (fun _ => 0) [fun i => i] true])
        (Filters.mk none none none none none : Filters ℕ ℕ) false none =
      (GenOutcome.emptyWarning, []) ∧
    (false = false → ∀ F ∈ (TaskModel.mk
        [ByFrame.mk [0] (fun _ => (0 : ℕ)) [fun i => i] true]).frames,
      ∀ key ∈ frameBlocks F,
      passesOnAcrossBy (Filters.mk none none none none none : Filters ℕ ℕ)
        key.1 key.2 = true →
      on_across_triplets_noreg F (Filters.mk none none none none none)
        key.1 key.2 = []) :=
  empty_task_short_circuit
    (TaskModel.mk [ByFrame.mk [0] (fun _ => 0) [fun i => i] true])
    (Filters.mk none none none none none) false none (by decide)

/-- The three chunking regimes of the external pair sort. -/
inductive SortChunking
  | onePass
  | thirtyChunks
  | maxChunk
deriving DecidableEq

/-- The chunking decision of `sort_pairs` (lines 1086-1115) and the
buffer size passed to the sort handler, in Ko: the available RAM is the
hardcoded `memory = 1000` Mo ("could be a param"), harmonized to Ko as
`1000 * memory`; the data amount is `n * itemsize` bytes harmonized to
Ko as `amount / 1000.`; one chunk when `amount <= 0.75 * memory`, around
30 chunks when `amount / 30. <= 0.75 * memory`, else chunks of size
`0.75 * memory`.  Python float arithmetic is modelled as exact rational
arithmetic (0.75 is exact in binary; the divisions are not, so float
rounding could flip a comparison only on a knife-edge boundary). -/
def sort_pairs_policy (n itemsize : ℕ) : SortChunking × ℚ :=
  let memory : ℚ := 1000 * 1000
  let amount : ℚ := (n : ℚ) * (itemsize : ℚ) / 1000
  if amount ≤ 3 / 4 * memory then (.onePass, amount)
  else if amount / 30 ≤ 3 / 4 * memory then (.thirtyChunks, amount / 30)
  else (.maxChunk, 3 / 4 * memory)

/-- Modelled from the spec: "External merge sort the pair-key stream
under a caller-specified memory budget `M` (in bytes): if the total data
size ≤ 0.75·M, sort in one in-memory pass; else if total/30 ≤ 0.75·M,
sort in ~30 bounded chunks; else sort using the maximum chunk size that
fits 0.75·M."  The decision of that policy for budget `M` and total
data size `total`, both in bytes. -/
def sort_pairs_policy_spec (M : ℚ) (total : ℚ) : SortChunking :=
  if total ≤ 3 / 4 * M then .onePass
  else if total / 30 ≤ 3 / 4 * M then .thirtyChunks
  else .maxChunk

/-- C9 counterexample to the original claim: the memory budget is not
caller-specified — it is the hardcoded 1000 megabytes.  For a caller
budget of 1000 bytes and a 10^6-byte dataset the spec policy demands
maximal chunks, but `sort_pairs` has no budget parameter and sorts in
one pass. -/
theorem sort_pairs_budget_counterexample :
    (sort_pairs_policy 1000000 1).1 = SortChunking.onePass ∧
    sort_pairs_policy_spec 1000 ((1000000 : ℚ) * 1) = SortChunking.maxChunk ∧
    SortChunking.onePass ≠ SortChunking.maxChunk := by
  refine ⟨?_, ?_, by decide⟩
  · norm_num [sort_pairs_policy]
  · norm_num [sort_pairs_policy_spec]

/-- C9 (amended): `sort_pairs` sorts each by group's pair-key dataset
under the fixed, hardcoded memory budget of 1000 megabytes (10^9 bytes;
not caller-specified) by the spec's three-way policy: one in-memory pass
when the total data size is at most 0.75 of the budget; roughly 30
bounded chunks when one-thirtieth of the total fits in 0.75 of the
budget; otherwise chunks of the maximal size 0.75 of the budget (the
buffer sizes handed to the sort are the amount, a thirtieth of it, or
0.75 of the budget, in Ko). -/
theorem sort_pairs_policy_eq (n itemsize : ℕ) :
    (sort_pairs_policy n itemsize).1 =
      sort_pairs_policy_spec (10 ^ 9) ((n : ℚ) * (itemsize : ℚ)) ∧
    ((sort_pairs_policy n itemsize).1 = SortChunking.onePass →
      (sort_pairs_policy n itemsize).2 = (n : ℚ) * (itemsize : ℚ) / 1000) ∧
    ((sort_pairs_policy n itemsize).1 = SortChunking.thirtyChunks →
      (sort_pairs_policy n itemsize).2 = (n : ℚ) * (itemsize : ℚ) / 1000 / 30) ∧
    ((sort_pairs_policy n itemsize).1 = SortChunking.maxChunk →
      (sort_pairs_policy n itemsize).2 = 3 / 4 * (1000 * 1000)) := by
  have hc1 : ((n : ℚ) * (itemsize : ℚ) / 1000 ≤ 3 / 4 * (1000 * 1000)) ↔
      ((n : ℚ) * (itemsize : ℚ) ≤ 3 / 4 * 10 ^ 9) := by
    rw [div_le_iff (by norm_num : (0 : ℚ) < 1000)]
    norm_num
  have hc2 : ((n : ℚ) * (itemsize : ℚ) / 1000 / 30 ≤ 3 / 4 * (1000 * 1000)) ↔
      ((n : ℚ) * (itemsize : ℚ) / 30 ≤ 3 / 4 * 10 ^ 9) := by
    rw [div_div, div_le_iff (by norm_num : (0 : ℚ) < 1000 * 30),
      div_le_iff (by norm_num : (0 : ℚ) < 30)]
    norm_num
  unfold sort_pairs_policy sort_pairs_policy_spec
  simp only []
  by_cases h1 : (n : ℚ) * (itemsize : ℚ) / 1000 ≤ 3 / 4 * (1000 * 1000)
  · rw [if_pos h1, if_pos (hc1.mp h1)]
    exact ⟨rfl, fun _ => rfl, fun hx => SortChunking.noConfusion hx,
      fun hx => SortChunking.noConfusion hx⟩
  · rw [if_neg h1, if_neg (fun hx => h1 (hc1.mpr hx))]
    by_cases h2 : (n : ℚ) * (itemsize : ℚ) / 1000 / 30 ≤ 3 / 4 * (1000 * 1000)
    · rw [if_pos h2, if_pos (hc2.mp h2)]
      exact ⟨rfl, fun hx => SortChunking.noConfusion hx, fun _ => rfl,
        fun hx => SortChunking.noConfusion hx⟩
    · rw [if_neg h2, if_neg (fun hx => h2 (hc2.mpr hx))]
      exact ⟨rfl, fun hx => SortChunking.noConfusion hx,
        fun hx => SortChunking.noConfusion hx, fun _ => rfl⟩

/-- C9 witness: a 10^6-byte dataset is sorted in one in-memory pass with
buffer size 1000 Ko, agreeing with the spec policy at the hardcoded
10^9-byte budget. -/
theorem sort_pairs_policy_eq_witness :
    (sort_pairs_policy 1000000 1).1 =
      sort_pairs_policy_spec (10 ^ 9) (((1000000 : ℕ) : ℚ) * ((1 : ℕ) : ℚ)) ∧
    (sort_pairs_policy 1000000 1).2 = ((1000000 : ℕ) : ℚ) * ((1 : ℕ) : ℚ) / 1000 :=
  ⟨(sort_pairs_policy_eq 1000000 1).1,
   (sort_pairs_policy_eq 1000000 1).2.1 (by norm_num [sort_pairs_policy])⟩

/-- Splitting a path at its last dot: `some (before, after)` when a dot
exists (preferring the rightmost one), `none` otherwise. -/
def lastDotSplit : List Char → Option (List Char × List Char)
  | [] => none
  | ch :: rest =>
    match lastDotSplit rest with
    | some (pre, suf) => some (ch :: pre, suf)
    | none => if ch = '.' then some ([], rest) else none

/-- `os.path.splitext` (Python standard library, posix semantics, used
at lines 667-669 and 822-824): split off the extension starting at the
last dot of the path, provided that dot comes after the last `/` and
the basename does not consist solely of leading dots. -/
def splitext (p : List Char) : List Char × List Char :=
  match lastDotSplit p with
  | none => (p, [])
  | some (pre, suf) =>
    if '/' ∈ suf then (p, [])
    else if (pre.reverse.takeWhile (fun ch => decide (¬ ch = '/'))).any
        (fun ch => decide (¬ ch = '.')) then (pre, '.' :: suf)
    else (p, [])

/-- The default output file of `generate_triplets` and `generate_pairs`
(lines 665-669 and 820-824): the database filename with its extension
replaced by `.abx`. -/
def default_output (database : List Char) : List Char :=
  (splitext database).1 ++ ('.' :: 'a' :: 'b' :: 'x' :: [])

/-- The output path used by `generate_triplets` (lines 667-669). -/
def generate_triplets_output (database : List Char)
    (output : Option (List Char)) : List Char :=
  match output with
  | none => default_output database
  | some o => o

/-- The output path used by `generate_pairs` (lines 822-824, the same
default). -/
def generate_pairs_output (database : List Char)
    (output : Option (List Char)) : List Char :=
  match output with
  | none => default_output database
  | some o => o

theorem lastDotSplit_of_not_mem (l : List Char) (h : '.' ∉ l) :
    lastDotSplit l = none := by
  induction l with
  | nil => rfl
  | cons ch rest ih =>
    unfold lastDotSplit
    rw [ih (fun hm => h (List.mem_cons_of_mem _ hm))]
    have hch : ¬ ch = '.' := by
      intro hd
      refine h ?_
      rw [← hd]
      exact List.mem_cons_self _ _
    rw [if_neg hch]

theorem lastDotSplit_append (stem ext : List Char) (h : '.' ∉ ext) :
    lastDotSplit (stem ++ '.' :: ext) = some (stem, ext) := by
  induction stem with
  | nil =>
    unfold lastDotSplit
    rw [List.nil_append]
    simp [lastDotSplit_of_not_mem ext h]
  | cons ch rest ih =>
    unfold lastDotSplit
    rw [List.cons_append]
    simp only []
    rw [ih]

theorem splitext_append (stem ext : List Char)
    (hdot : '.' ∉ ext) (hsep : '/' ∉ ext)
    (hbase : (stem.reverse.takeWhile (fun ch => decide (¬ ch = '/'))).any
      (fun ch => decide (¬ ch = '.')) = true) :
    splitext (stem ++ '.' :: ext) = (stem, '.' :: ext) := by
  unfold splitext
  rw [lastDotSplit_append stem ext hdot]
  simp only []
  rw [if_neg hsep, if_pos hbase]

/-- C10: with `output=None`, `generate_triplets` writes to the database
filename with its extension replaced by `.abx` (the stem must have a
non-dot character in its basename and the extension no dot or
separator, the cases where `os.path.splitext` recognizes an extension);
`generate_pairs` applies the identical default, and an explicit output
path is passed through unchanged by both. -/
theorem default_output_path (stem ext : List Char)
    (hdot : '.' ∉ ext) (hsep : '/' ∉ ext)
    (hbase : (stem.reverse.takeWhile (fun ch => decide (¬ ch = '/'))).any
      (fun ch => decide (¬ ch = '.')) = true) :
    generate_triplets_output (stem ++ '.' :: ext) none =
      stem ++ ('.' :: 'a' :: 'b' :: 'x' :: []) ∧
    generate_pairs_output (stem ++ '.' :: ext) none =
      generate_triplets_output (stem ++ '.' :: ext) none ∧
    (∀ o, generate_triplets_output (stem ++ '.' :: ext) (some o) = o ∧
      generate_pairs_output (stem ++ '.' :: ext) (some o) = o) := by
  have hd : default_output (stem ++ '.' :: ext) =
      stem ++ ('.' :: 'a' :: 'b' :: 'x' :: []) := by
    unfold default_output
    rw [splitext_append stem ext hdot hsep hbase]
  exact ⟨hd, rfl, fun o => ⟨rfl, rfl⟩⟩

/-- C10 witness: the database file `data.item` defaults to `data.abx`
for both the triplet and the pair writer. -/
theorem default_output_path_witness :
    generate_triplets_output ("data".toList ++ '.' :: "item".toList) none =
      "data".toList ++ ('.' :: 'a' :: 'b' :: 'x' :: []) ∧
    generate_pairs_output ("data".toList ++ '.' :: "item".toList) none =
      generate_triplets_output ("data".toList ++ '.' :: "item".toList) none ∧
    (∀ o, generate_triplets_output ("data".toList ++ '.' :: "item".toList) (some o) = o ∧
      generate_pairs_output ("data".toList ++ '.' :: "item".toList) (some o) = o) :=
  default_output_path "data".toList "item".toList (by decide) (by decide) (by decide)
